import Mathlib

/-!
Verification development for the jieba-go word segmentation engine.

The Go sources are shallowly embedded here.  Texts are lists of runes
(`List Char`), Go maps are association lists looked up with `alookup`,
and Go `int` is `Int`.  Go float64 log-probabilities are idealized as
exact decimal values scaled by 10 to the 17th power and stored as `Int`
(every float literal in the source has at most 17 fractional digits, so
the scaling is exact); the code performs only additions and order
comparisons on these values, and scaling preserves both, so the
idealization is faithful for every fact proved below.  Every definition
mirrors the corresponding function of the current pipeline
implementation (the file defining `Cut`, `CutParallel`, `cutNonZh`,
`buildDAG`, `findDAGPath`, `maxIndexProba`, `findBestPath`,
`buildPrefixDictionary` and the `hiddenMarkovModel` methods).
-/

set_option maxRecDepth 40000

namespace JiebaGo

/-- The floor constant `minFloat = -3.14e100` from the Go source,
scaled by 10 to the 17th power like every probability value here. -/
def minFloat : Int := -(314 * 10 ^ 115)

/-- Association-list lookup, modelling a Go map read (first match wins;
Go maps have unique keys, so first-match agrees with map semantics). -/
def alookup {α β : Type} [DecidableEq α] (k : α) : List (α × β) → Option β
  | [] => none
  | (k', v) :: rest => if k' = k then some v else alookup k rest

/-- Models Go `unicode.IsSpace`: the Unicode White_Space property. -/
def isSpaceRune (c : Char) : Bool :=
  (0x9 ≤ c.toNat && c.toNat ≤ 0xd) || c.toNat = 0x20 || c.toNat = 0x85 ||
  c.toNat = 0xa0 || c.toNat = 0x1680 ||
  (0x2000 ≤ c.toNat && c.toNat ≤ 0x200a) ||
  c.toNat = 0x2028 || c.toNat = 0x2029 || c.toNat = 0x202f ||
  c.toNat = 0x205f || c.toNat = 0x3000

/-- Models the Go regular expression class `[a-zA-Z0-9]`. -/
def isAlnumRune (c : Char) : Bool :=
  ('a' ≤ c && c ≤ 'z') || ('A' ≤ c && c ≤ 'Z') || ('0' ≤ c && c ≤ '9')

/-- Models the Go regular expression class `\p{Han}` (Unicode Han
script); the principal ranges from Unicode Scripts.txt. -/
def isHan (c : Char) : Bool :=
  let n := c.toNat
  (0x2e80 ≤ n && n ≤ 0x2e99) || (0x2e9b ≤ n && n ≤ 0x2ef3) ||
  (0x2f00 ≤ n && n ≤ 0x2fd5) || n = 0x3005 || n = 0x3007 ||
  (0x3021 ≤ n && n ≤ 0x3029) || (0x3038 ≤ n && n ≤ 0x303b) ||
  (0x3400 ≤ n && n ≤ 0x4dbf) || (0x4e00 ≤ n && n ≤ 0x9fff) ||
  (0xf900 ≤ n && n ≤ 0xfa6d) || (0xfa70 ≤ n && n ≤ 0xfad9) ||
  (0x20000 ≤ n && n ≤ 0x2a6df) || (0x2a700 ≤ n && n ≤ 0x2ebe0) ||
  (0x2f800 ≤ n && n ≤ 0x2fa1d) || (0x30000 ≤ n && n ≤ 0x3134a)

/-- One step of the run finder below. -/
def runStep (p : Char → Bool) (st : List (Nat × Nat) × Option Nat) (ic : Nat × Char) :
    List (Nat × Nat) × Option Nat :=
  match st.2, p ic.2 with
  | none, true => (st.1, some ic.1)
  | none, false => st
  | some s, true => (st.1, some s)
  | some s, false => (st.1 ++ [(s, ic.1)], none)

/-- Maximal runs of characters satisfying `p`, as half-open index pairs.
Models Go `regexp.FindAllIndex` for the patterns `\p{Han}+` and
`[a-zA-Z0-9]+`, with rune indexes instead of byte indexes (the match
boundaries cut the text at the same places either way). -/
def findRuns (p : Char → Bool) (s : List Char) : List (Nat × Nat) :=
  let r := s.enum.foldl (runStep p) ([], none)
  match r.2 with
  | none => r.1
  | some st => r.1 ++ [(st, s.length)]

/-- Rune-index slice `text[a:b]`. -/
def sliceRunes (text : List Char) (a b : Nat) : List Char :=
  (text.drop a).take (b - a)

/-- The `textBlock` struct of the Go source. -/
structure TextBlockE where
  id : Nat
  text : List Char
  doProcess : Bool
deriving DecidableEq

/-- The loop body of Go `splitText`: walks the marked index pairs
carrying the running block id `count` and the previous tail offset. -/
def splitTextGo (text : List Char) : List (Nat × Nat) → Nat → Nat → List TextBlockE
  | [], _, _ => []
  | pair :: rest, count, prevTail =>
    let gap : List TextBlockE :=
      if pair.1 ≠ prevTail then [⟨count, sliceRunes text prevTail pair.1, false⟩] else []
    let count1 := if pair.1 ≠ prevTail then count + 1 else count
    let mb : TextBlockE := ⟨count1, sliceRunes text pair.1 pair.2, true⟩
    let tail : List TextBlockE :=
      if rest = [] ∧ pair.2 ≠ text.length then [⟨count1 + 1, text.drop pair.2, false⟩] else []
    gap ++ [mb] ++ tail ++ splitTextGo text rest (count1 + 1) pair.2

/-- Go `splitText`: covers the text with alternating unmarked gap blocks
and marked blocks, assigning increasing ids. -/
def splitText (text : List Char) (markedIndexes : List (Nat × Nat)) : List TextBlockE :=
  if markedIndexes = [] then [⟨0, text, false⟩]
  else splitTextGo text markedIndexes 0 0

/-- Go `cutNonZh`: when the alnum matcher finds nothing the function
returns the empty token list at once; otherwise alnum runs become one
token each and every other rune is emitted alone unless it is
whitespace. -/
def cutNonZh (text : List Char) : List (List Char) :=
  let alnumIdx := findRuns isAlnumRune text
  if alnumIdx = [] then []
  else
    (splitText text alnumIdx).foldl
      (fun acc b =>
        if b.doProcess then acc ++ [b.text]
        else acc ++ (b.text.filter (fun r => !isSpaceRune r)).map (fun r => [r]))
      []

/-- Go `Cut`, parameterized by the Han-block segmentation routine
`cutZhF` (taking the hmm flag and the block text).  `Cut` splits the
text on Han runs and routes each block to `cutZh` or `cutNonZh`; the
parameter stands for the deterministic `cutZh` so that facts about the
splitting and routing hold for the full pipeline. -/
def cutWith (cutZhF : Bool → List Char → List (List Char))
    (text : List Char) (useHmm : Bool) : List (List Char) :=
  let blocks := splitText text (findRuns isHan text)
  blocks.foldl
    (fun acc b => acc ++ (if b.doProcess then cutZhF useHmm b.text else cutNonZh b.text))
    []

/-- Term-frequency table of the prefix dictionary: Go
`map[string]int`, keys as rune lists. -/
abbrev TF : Type := List (List Char × Int)

/-- The rune of `rs` at index `i` (total; all uses have `i` in range). -/
def runeAt (rs : List Char) (i : Nat) : Char :=
  rs.getD i 'a'

/-- Inner loop of Go `buildDAG`: extend the end offset from `j` upward
while `text[i : j+1+i]` stays a present key, emitting an edge for each
positive-frequency piece; `rem` counts the remaining iterations
(`n - i` at the start, exactly the Go range). -/
def dagExtend (tf : TF) (rs : List Char) (i : Nat) : Nat → Nat → List (Nat × Nat)
  | _, 0 => []
  | j, rem + 1 =>
    let part := (rs.drop i).take (j + 1)
    match alookup part tf with
    | none => []
    | some v => (if 0 < v then [(i, j + 1 + i)] else []) ++ dagExtend tf rs i (j + 1) rem

/-- The pieces contributed by start offset `i` in Go `buildDAG`: the
fallback `(i, i+1)` when the single rune is absent or has frequency 0,
otherwise the extension loop. -/
def piecesAt (tf : TF) (rs : List Char) (i : Nat) : List (Nat × Nat) :=
  match alookup [runeAt rs i] tf with
  | none => [(i, i + 1)]
  | some c => if c = 0 then [(i, i + 1)] else dagExtend tf rs i 0 (rs.length - i)

/-- The full piece list of Go `buildDAG` (before grouping by start). -/
def buildDAGpieces (tf : TF) (rs : List Char) : List (Nat × Nat) :=
  (List.range rs.length).flatMap (piecesAt tf rs)

/-- The adjacency list `dag[i]` of Go `buildDAG`: end offsets of the
pieces starting at `i`, in emission order. -/
def dagAt (tf : TF) (rs : List Char) (i : Nat) : List Nat :=
  ((buildDAGpieces tf rs).filter (fun p => p.1 == i)).map Prod.snd

/-- The `tf` local of Go `findDAGPath`: `tf := 1.0` overwritten with the
stored frequency whenever the piece is a present key, zero included
(an unscaled frequency value, always integral in the source). -/
def pieceTF (tf : TF) (piece : List Char) : Int :=
  match alookup piece tf with
  | some v => v
  | none => 1

/-- The default the specification prescribes for the same lines:
frequency when present and positive, otherwise 1, so that the logarithm
argument is always positive and the log-probability finite. -/
def specPieceTF (tf : TF) (piece : List Char) : Int :=
  match alookup piece tf with
  | some v => if 0 < v then v else 1
  | none => 1

/-- The scaled value of the float literal 1.1 used in the reference
test fixtures. -/
def e11 : Int := 11 * 10 ^ 16

/-- The scaled value of the float literal 2.2 used in the reference
test fixtures. -/
def e22 : Int := 22 * 10 ^ 16

/-- The `tailProba` struct of the Go source. -/
structure TailProba where
  index : Int
  proba : Int
deriving DecidableEq

/-- One iteration of the Go `maxIndexProba` loop over `(prev, best)`:
`best` is replaced whenever the item is at least as probable as the
immediately preceding item (not the running best). -/
def mipStep (pb : TailProba × TailProba) (item : TailProba) : TailProba × TailProba :=
  (item, if pb.1.proba ≤ item.proba then item else pb.2)

/-- Go `maxIndexProba` on a candidate list: fold the loop, then return
`prev` when `best` never left its sentinel. -/
def maxIndexProba (items : List TailProba) : TailProba :=
  let r := items.foldl mipStep (⟨-1, minFloat⟩, ⟨-1, minFloat⟩)
  if r.2.index = -1 then r.1 else r.2

/-- Go map read `dagProba[i]` with the nil-slice default. -/
def lookupDP (dp : List (Int × List TailProba)) (i : Int) : List TailProba :=
  match dp with
  | [] => []
  | (k, v) :: rest => if k = i then v else lookupDP rest i

/-- The Go `findBestPath` loop with explicit fuel: the Go loop has no
other bound, so exhausted fuel (`none`) witnesses that the loop is still
running.  Mirrors `for i := 0; i < n && i >= 0; { tail := maxIndexProba(
dagProba[i]); append (i, tail.index); i = tail.index }`. -/
def fbpGo (dp : List (Int × List TailProba)) (n : Nat) :
    Nat → Int → List (Int × Int) → Option (List (Int × Int))
  | 0, i, acc => if 0 ≤ i ∧ i < (n : Int) then none else some acc.reverse
  | fuel + 1, i, acc =>
    if 0 ≤ i ∧ i < (n : Int) then
      let tail := maxIndexProba (lookupDP dp i)
      fbpGo dp n fuel tail.index ((i, tail.index) :: acc)
    else some acc.reverse

/-- Go `findBestPath` starting at offset 0, with fuel. -/
def findBestPathFuel (dp : List (Int × List TailProba)) (n : Nat) (fuel : Nat) :
    Option (List (Int × Int)) :=
  fbpGo dp n fuel 0 []

/-- The Go `findBestPath` call returns: some fuel suffices. -/
def findBestPathTerminates (dp : List (Int × List TailProba)) (n : Nat) : Prop :=
  ∃ fuel r, findBestPathFuel dp n fuel = some r

example : dagAt [(['a'], 2), (['a', 'b'], 3)] ['a', 'b', 'c'] 0 = [1, 2] := by decide
example : dagAt [(['a'], 2)] ['a', 'b', 'c'] 1 = [2] := by decide
example : dagAt [(['z'], 0)] ['z'] 0 = [1] := by decide
example : maxIndexProba [⟨0, 0⟩, ⟨1, e11⟩, ⟨2, e22⟩, ⟨3, -(33 * 10 ^ 16)⟩] = ⟨2, e22⟩ := by decide
example : maxIndexProba [⟨2, minFloat⟩, ⟨3, minFloat⟩, ⟨4, minFloat⟩] = ⟨4, minFloat⟩ := by
  decide
example : maxIndexProba [⟨1, 5⟩, ⟨2, 1⟩, ⟨3, 2⟩] = ⟨3, 2⟩ := by decide
example : findBestPathFuel [(0, [⟨1, e11⟩, ⟨2, e22⟩]), (1, [⟨2, e11⟩, ⟨3, e22⟩]),
    (2, [⟨3, e11⟩]), (3, [⟨4, e11⟩]), (4, [⟨5, e11⟩]), (5, [⟨6, e11⟩])] 6 7 =
    some [(0, 2), (2, 3), (3, 4), (4, 5), (5, 6)] := by decide

/-- Go `strings.SplitN(s, sep, n)` for a one-rune separator: at most `n`
parts, the last part keeping every remaining separator. -/
def splitNRune (sep : Char) : List Char → Nat → List (List Char)
  | _, 0 => []
  | s, 1 => [s]
  | s, n + 2 =>
    match s.span (fun c => c ≠ sep) with
    | (_, []) => [s]
    | (before, _ :: after) =>
      before :: splitNRune sep after (n + 1)

/-- Go `strconv.Atoi`: optional sign followed by at least one digit
(overflow ignored; no input below reaches it). -/
def atoi (s : List Char) : Option Int :=
  let digitsVal : List Char → Option Nat := fun ds =>
    if ds ≠ [] ∧ ds.all Char.isDigit then
      some (ds.foldl (fun a c => a * 10 + (c.toNat - 48)) 0)
    else none
  match s with
  | '-' :: ds => (digitsVal ds).map fun n => -(n : Int)
  | '+' :: ds => (digitsVal ds).map fun n => (n : Int)
  | ds => (digitsVal ds).map fun n => (n : Int)

/-- The `prefixDictionary` fields touched by a build: the term table and
the corpus size. -/
structure PD where
  termFreq : TF
  size : Int
deriving DecidableEq

/-- Outcome of a call to Go `buildPrefixDictionary`: normal return,
error return (with the tokenizer state at that point and the count
field the error names), or a runtime panic. -/
inductive BuildResult where
  | ok (pd : PD)
  | err (pd : PD) (badField : List Char)
  | crashed
deriving DecidableEq

/-- Go map upsert `termFreq[word] = count`. -/
def insertTF (tf : TF) (k : List Char) (v : Int) : TF :=
  match alookup k tf with
  | some _ => tf.map fun p => if p.1 = k then (k, v) else p
  | none => tf ++ [(k, v)]

/-- The piece loop of Go `buildPrefixDictionary`: every proper nonempty
rune-level word piece is inserted with frequency 0 when absent. -/
def addPieces (tf : TF) (word : List Char) : TF :=
  (List.range (word.length - 1)).foldl
    (fun t k =>
      let piece := word.take (k + 1)
      match alookup piece t with
      | some _ => t
      | none => t ++ [(piece, 0)])
    tf

/-- The line fields of a dictionary line (Go `strings.SplitN(line, " ", 3)`). -/
def lineParts (line : List Char) : List (List Char) :=
  splitNRune ' ' line 3

/-- The word field of a dictionary line. -/
def lineWord (line : List Char) : List Char :=
  (lineParts line).headD []

/-- The count field of a dictionary line, when the line has one (Go
reads `parts[1]`, which panics when missing). -/
def lineCountField (line : List Char) : Option (List Char) :=
  ((lineParts line).drop 1).head?

/-- A line the Go build loop passes without returning or crashing:
it has a count field, that field parses, and the word is nonempty
(`wordR[:len(wordR)-1]` panics on an empty word). -/
def lineGood (line : List Char) : Bool :=
  match lineCountField line with
  | none => false
  | some cf => (atoi cf).isSome && !(lineWord line).isEmpty

/-- The term-table effect of one successfully processed line. -/
def applyGoodLine (tf : TF) (line : List Char) : TF :=
  addPieces (insertTF tf (lineWord line) ((atoi ((lineCountField line).getD [])).getD 0))
    (lineWord line)

/-- The loop of Go `buildPrefixDictionary` over the remaining lines.
The method first replaces `tk.pd.termFreq` with a fresh map, so the
running table `tf` starts empty; on an error return the already built
part of the table stays installed while `tk.pd.size` keeps the value
`oldSize` it had before the call (the method writes it only at the
end). -/
def buildPDLoop (oldSize : Int) (tf : TF) (total : Int) :
    List (List Char) → BuildResult
  | [] => .ok ⟨tf, total⟩
  | line :: rest =>
    match (lineParts line).drop 1 with
    | [] => .crashed
    | cf :: _ =>
      match atoi cf with
      | none => .err ⟨tf, oldSize⟩ cf
      | some count =>
        if (lineWord line).isEmpty then .crashed
        else buildPDLoop oldSize (applyGoodLine tf line) (total + count) rest

/-- Go `buildPrefixDictionary` as a state transformer on the tokenizer
prefix-dictionary fields. -/
def buildPrefixDictionary (pd : PD) (lines : List (List Char)) : BuildResult :=
  buildPDLoop pd.size [] 0 lines

example : lineParts ['a', 'b', ' ', '2', ' ', 'n', ' ', 'x'] =
    [['a', 'b'], ['2'], ['n', ' ', 'x']] := by decide
example : atoi ['2'] = some 2 ∧ atoi ['-', '5'] = some (-5) ∧ atoi ['y'] = none ∧
    atoi [] = none := by decide
example : buildPrefixDictionary ⟨[(['o'], 7)], 42⟩ [['a', 'b', ' ', '2'], ['c', 'd', ' ', 'y']] =
    .err ⟨[(['a', 'b'], 2), (['a'], 0)], 42⟩ ['y'] := by decide
example : buildPrefixDictionary ⟨[(['o'], 7)], 42⟩ [['c', 'd']] = .crashed := by decide
example : buildPrefixDictionary ⟨[], 0⟩ [['a', 'b', ' ', '2', ' ', 'n']] =
    .ok ⟨[(['a', 'b'], 2), (['a'], 0)], 2⟩ := by decide

/-- The `stateChange` table of the Go source: legal predecessors of
each hidden state (a Go map, so a missing key yields nil). -/
def stateChange (s : String) : List String :=
  if s = "B" then ["E", "S"]
  else if s = "M" then ["B", "M"]
  else if s = "E" then ["B", "M"]
  else if s = "S" then ["E", "S"]
  else []

/-- The `HMMstates` iteration order of the Go source. -/
def HMMstates : List String := ["B", "M", "E", "S"]

/-- The `transitionRoute` struct of the Go source. -/
structure TransitionRoute where
  fromS : String
  proba : Int
deriving DecidableEq

/-- The `hiddenMarkovModel` tables (emission keys are single runes,
values scaled like every probability). -/
structure HMMq where
  startP : List (String × Int)
  transP : List (String × List (String × Int))
  emitP : List (String × List (Char × Int))

/-- Go `stateTransitionRoute`: evaluate every legal predecessor route of
`nowState` against the previous position row, then pick the first route
strictly above the running best, starting from the empty state name at
`minFloat`.  The Go code iterates a freshly built map here, so route
ties are iteration-order dependent; this embedding fixes the
`stateChange` order (every theorem below is either tie-free at this
spot or independent of the choice). -/
def stateTransitionRoute (transP : List (String × List (String × Int)))
    (prevRow : List (String × Int)) (nowState : String) : TransitionRoute :=
  let routes := (stateChange nowState).map fun prevState =>
    (prevState,
      (alookup prevState prevRow).getD 0 +
        (alookup nowState ((alookup prevState transP).getD [])).getD 0)
  let best := routes.foldl (fun b r => if b.2 < r.2 then r else b) ("", minFloat)
  ⟨best.1, best.2⟩

/-- The emission probability read `hmm.emitP[s][char]` with the
`minFloat` default for unseen characters. -/
def emitAt (hmm : HMMq) (s : String) (c : Char) : Int :=
  (alookup c ((alookup s hmm.emitP).getD [])).getD minFloat

/-- The initial Viterbi state: the position-0 probability row and the
initial one-state full paths, exactly as Go `viterbi` sets them up. -/
def viterbiInit (hmm : HMMq) (c0 : Char) :
    List (String × Int) × List (String × List String) :=
  (HMMstates.map fun s => (s, (alookup s hmm.startP).getD 0 + emitAt hmm s c0),
   [("B", ["B"]), ("M", ["M"]), ("E", ["E"]), ("S", ["S"])])

/-- One iteration of the Go `viterbi` main loop: for every state find
its best route from the previous row, add the emission, and extend the
full path of the route source (a missing path key yields nil, exactly
like the Go map read `fullPath[route.from]`). -/
def viterbiStep (hmm : HMMq) (st : List (String × Int) × List (String × List String))
    (char : Char) : List (String × Int) × List (String × List String) :=
  let rp := HMMstates.map fun s =>
    let route := stateTransitionRoute hmm.transP st.1 s
    ((s, route.proba + emitAt hmm s char),
     (s, ((alookup route.fromS st.2).getD []) ++ [s]))
  (rp.map Prod.fst, rp.map Prod.snd)

/-- Go `viterbi`: the single-rune shortcut, then the fold of the main
loop, then the final comparison `if e > s` between the last-position
probabilities of E and S (the empty input makes the Go code panic on
`textRune[0]` and is modelled as nil; nothing below relies on it). -/
def viterbi (hmm : HMMq) (textRune : List Char) : List String :=
  if textRune.length = 1 then ["S"]
  else
    match textRune with
    | [] => []
    | c0 :: rest =>
      let st := rest.foldl (viterbiStep hmm) (viterbiInit hmm c0)
      let e := (alookup "E" st.1).getD 0
      let s := (alookup "S" st.1).getD 0
      if s < e then (alookup "E" st.2).getD [] else (alookup "S" st.2).getD []

/-- The `startP` table loaded by `newJiebaHMM`, scaled. -/
def jStartP : List (String × Int) :=
  [("B", -26268660809250016), ("E", minFloat), ("M", minFloat),
   ("S", -146526333985376780)]

/-- The `transP` table loaded by `newJiebaHMM`, scaled. -/
def jTransP : List (String × List (String × Int)) :=
  [("B", [("E", -51082562376599000), ("M", -91629073187415500)]),
   ("E", [("B", -58971497368545130), ("S", -80852504746699370)]),
   ("M", [("E", -33344856811948514), ("M", -126036238202682260)]),
   ("S", [("B", -72119656546698410), ("S", -66586314487982120)])]

/-- The loaded model with an emission table that has no entry for the
runes of a given input: `prob_emit.json` is external data, and any rune
absent from all four state rows behaves exactly like this. -/
def jiebaHMMNoEmit : HMMq := ⟨jStartP, jTransP, []⟩

example : viterbi jiebaHMMNoEmit ['天'] = ["S"] := by decide
example : viterbi jiebaHMMNoEmit ['天', '氣'] = ["S"] := by decide

/-- The scale factor of the probability embedding: values that are
integer multiples of it stand for integer float64 log-probabilities,
which float64 arithmetic adds and compares exactly. -/
def sc : Int := 10 ^ 17

/-- A concrete model instance whose final E and S probabilities on the
input below are exactly equal (all values are integer log-probabilities,
so the tie is exact in float64 as well). -/
def tieHMM : HMMq :=
  ⟨[("B", 0), ("M", -100 * sc), ("E", -100 * sc), ("S", 0)],
   [("B", [("E", -1 * sc), ("M", -1 * sc)]),
    ("E", [("B", -1 * sc), ("S", -1 * sc)]),
    ("M", [("E", -1 * sc), ("M", -1 * sc)]),
    ("S", [("B", -1 * sc), ("S", -1 * sc)])],
   [("B", [('甲', 0)]),
    ("M", [('甲', -50 * sc)]),
    ("E", [('甲', -50 * sc), ('乙', -60 * sc)]),
    ("S", [('甲', -50 * sc), ('乙', -10 * sc)])]⟩

example : viterbi tieHMM ['甲', '甲'] = ["B", "S"] ∨
    viterbi tieHMM ['甲', '甲'] = ["S", "S"] ∨ viterbi tieHMM ['甲', '甲'] = ["B", "E"] := by
  decide

/-- The `resultBlock` struct of the Go source. -/
structure ResultBlockE where
  id : Nat
  tokens : List (List Char)
deriving DecidableEq

/-- Insertion step of the sort used below. -/
def insertRB (x : ResultBlockE) : List ResultBlockE → List ResultBlockE
  | [] => [x]
  | y :: ys => if x.id ≤ y.id then x :: y :: ys else y :: insertRB x ys

/-- A sort by block id, modelling the `sort.Slice` call of Go
`CutParallel` in ordered mode (the ids are pairwise distinct there, so
every sort produces the same list and stability is irrelevant). -/
def sortRB : List ResultBlockE → List ResultBlockE
  | [] => []
  | x :: xs => insertRB x (sortRB xs)

/-- The result blocks the workers of Go `CutParallel` produce: one per
text block, processed exactly as the sequential `Cut` does.  Workers
only permute the order in which these reach the result channel. -/
def seqResultBlocks (cutZhF : Bool → List Char → List (List Char))
    (text : List Char) (useHmm : Bool) : List ResultBlockE :=
  (splitText text (findRuns isHan text)).map fun b =>
    ⟨b.id, if b.doProcess then cutZhF useHmm b.text else cutNonZh b.text⟩

/-- The ordered collection phase of Go `CutParallel`: gather the arrived
result blocks, sort them by id, and flatten their token lists in order.
The nondeterministic worker scheduling is modelled by the caller handing
in the arrival order as an arbitrary permutation of the produced
blocks. -/
def cutParallelOrdered (arrival : List ResultBlockE) : List (List Char) :=
  (sortRB arrival).foldl (fun acc rb => acc ++ rb.tokens) []

example : findRuns isAlnumRune ['a', '1', '+', 'b'] = [(0, 2), (3, 4)] := by decide

/-- Claim C1: the concatenation of the tokens of `Cut` is claimed to
reconstruct the text minus the whitespace of non-CJK blocks.  It does
not: on the one-rune text consisting of a period (with any Han-block
routine and either hmm flag), `Cut` returns no tokens at all, while the
text has no whitespace to remove, so a non-whitespace rune is dropped.
The slip is the early return of `cutNonZh` on blocks without an
alphanumeric run. -/
theorem cut_drops_nonalnum_block (cutZhF : Bool → List Char → List (List Char))
    (useHmm : Bool) :
    (cutWith cutZhF ['.'] useHmm).flatten = [] ∧
    ['.'].filter (fun c => !isSpaceRune c) = ['.'] := by
  exact ⟨rfl, by decide⟩

/-- Claim C2: within a non-CJK block every non-whitespace rune outside
alphanumeric runs is claimed to be emitted as its own token even when
the block has no alphanumeric run at all.  The code instead returns the
empty token list for such a block: here a block of two plus signs, both
non-whitespace, yields no tokens. -/
theorem cutNonZh_drops_runes_without_alnum :
    cutNonZh ['+', '+'] = [] ∧ (['+', '+'].all fun c => !isSpaceRune c) = true := by
  decide

/-- Claim C3, counterexample: on the two-rune input below the final
cumulative probabilities of E and S are exactly equal (every table value
is an integer log-probability, so float64 arithmetic is exact here), yet
`viterbi` returns the path ending in S, and the recorded E path is a
different path — the claim says ties favor E. -/
theorem viterbi_tie_returns_S_path :
    (alookup "E" (['乙'].foldl (viterbiStep tieHMM) (viterbiInit tieHMM '甲')).1).getD 0 =
      (alookup "S" (['乙'].foldl (viterbiStep tieHMM) (viterbiInit tieHMM '甲')).1).getD 0 ∧
    viterbi tieHMM ['甲', '乙'] = ["S", "S"] ∧
    (alookup "E" (['乙'].foldl (viterbiStep tieHMM) (viterbiInit tieHMM '甲')).2).getD [] =
      ["B", "E"] := by
  decide

/-- Claim C4, counterexample: a build over two lines whose second count
field is non-numeric returns an error, yet the term table does not keep
its previous contents — the previously stored term is gone and the
partial table of the first line is installed (the corpus size does keep
its old value).  A line missing its count field crashes instead of
returning an error. -/
theorem buildPrefixDictionary_installs_partial_table :
    buildPrefixDictionary ⟨[(['o'], 7)], 42⟩ [['a', 'b', ' ', '2'], ['c', 'd', ' ', 'y']] =
      .err ⟨[(['a', 'b'], 2), (['a'], 0)], 42⟩ ['y'] ∧
    alookup ['o'] ([(['a', 'b'], 2), (['a'], 0)] : TF) = none ∧
    alookup ['o'] ([(['o'], 7)] : TF) = some 7 ∧
    buildPrefixDictionary ⟨[(['o'], 7)], 42⟩ [['c', 'd']] = .crashed := by
  decide

/-- Claim C6: the backtrace is claimed to select a candidate of maximum
combined probability at every step.  `maxIndexProba` compares each item
against its immediate predecessor instead of the running best: on the
list below it returns the candidate of probability 2 although the list
holds one of probability 5.  With exactly two candidates the comparison
does coincide with the maximum, so the two-candidate fixture of the
reference tests (the one deciding between the two segmentations of the
example text) still selects the higher-probability head piece. -/
theorem maxIndexProba_not_maximum :
    maxIndexProba [⟨1, 5 * sc⟩, ⟨2, 1 * sc⟩, ⟨3, 2 * sc⟩] = ⟨3, 2 * sc⟩ ∧
    (2 * sc : Int) < 5 * sc ∧
    findBestPathFuel [(0, [⟨1, e11⟩, ⟨2, e22⟩]), (1, [⟨2, e11⟩, ⟨3, e22⟩]), (2, [⟨3, e11⟩]),
      (3, [⟨4, e11⟩]), (4, [⟨5, e11⟩]), (5, [⟨6, e11⟩])] 6 7 =
      some [(0, 2), (2, 3), (3, 4), (4, 5), (5, 6)] := by
  decide

/-- Claim C7: the edge probability is claimed to use frequency 1
whenever the stored frequency is not positive, keeping every logarithm
finite.  For a rune stored with frequency 0 the DAG emits the fallback
edge, but `findDAGPath` then finds the piece present and sets `tf` to 0,
so the Go code computes `math.Log(0)`, negative infinity — the `tf`
the code selects is 0 where the claim requires 1. -/
theorem pieceTF_zero_on_zero_frequency :
    dagAt [(['撙'], 0)] ['撙'] 0 = [1] ∧
    pieceTF [(['撙'], 0)] ['撙'] = 0 ∧
    specPieceTF [(['撙'], 0)] ['撙'] = 1 := by
  decide

/-- Claim C9: the Viterbi path is claimed to have one state per input
rune.  When the first rune has no emission entry for any state, every
route probability at step 1 fails the strict comparison against the
floor constant, the route source stays the empty string, and the path
map read `fullPath[""]` yields nil — the paths restart, and the decoder
returns a single state for a two-rune input.  The loaded jieba start and
transition tables are used; the emission table simply lacks the runes,
which is exactly how any rune absent from `prob_emit.json` behaves. -/
theorem viterbi_path_shorter_than_input :
    viterbi jiebaHMMNoEmit ['天', '氣'] = ["S"] ∧
    (viterbi jiebaHMMNoEmit ['天', '氣']).length = 1 ∧
    (['天', '氣'] : List Char).length = 2 := by
  decide
example : cutNonZh ['a', '1', '+', '1', '=', '2'] =
    [['a', '1'], ['+'], ['1'], ['='], ['2']] := by decide
example : cutNonZh ['a', 'a', '\n', 'b'] = [['a', 'a'], ['b']] := by decide
example : cutNonZh ['+', '+'] = [] := by decide
example : splitText ['x', '中', 'y'] (findRuns isHan ['x', '中', 'y']) =
    [⟨0, ['x'], false⟩, ⟨1, ['中'], true⟩, ⟨2, ['y'], false⟩] := by decide


theorem alookup_some_mem {α β : Type} [DecidableEq α] (k : α) (l : List (α × β)) (v : β)
    (h : alookup k l = some v) : (k, v) ∈ l := by
  induction l with
  | nil => cases h
  | cons e rest ih =>
    obtain ⟨k', v'⟩ := e
    by_cases hk : k' = k
    · subst hk
      simp [alookup] at h
      simp [h]
    · simp [alookup, hk] at h
      exact List.mem_cons_of_mem _ (ih h)

theorem dagExtend_mem (tf : TF) (rs : List Char) (i : Nat) :
    ∀ (rem j : Nat) (p : Nat × Nat), p ∈ dagExtend tf rs i j rem → p.1 = i ∧ i < p.2 := by
  intro rem
  induction rem with
  | zero => intro j p hp; cases hp
  | succ m ih =>
    intro j p hp
    unfold dagExtend at hp
    cases halo : alookup ((rs.drop i).take (j + 1)) tf with
    | none => simp only [halo] at hp; cases hp
    | some v =>
      simp only [halo] at hp
      rcases List.mem_append.mp hp with hl | hr
      · by_cases hv : 0 < v
        · rw [if_pos hv] at hl
          rcases List.mem_singleton.mp hl with rfl
          exact ⟨rfl, by omega⟩
        · rw [if_neg hv] at hl; cases hl
      · exact ih (j + 1) p hr

theorem piecesAt_mem (tf : TF) (rs : List Char) (i : Nat) :
    ∀ p ∈ piecesAt tf rs i, p.1 = i ∧ i < p.2 := by
  intro p hp
  unfold piecesAt at hp
  cases halo : alookup [runeAt rs i] tf with
  | none =>
    simp only [halo] at hp
    rcases List.mem_singleton.mp hp with rfl
    exact ⟨rfl, by omega⟩
  | some c =>
    simp only [halo] at hp
    by_cases hc : c = 0
    · rw [if_pos hc] at hp
      rcases List.mem_singleton.mp hp with rfl
      exact ⟨rfl, by omega⟩
    · rw [if_neg hc] at hp
      exact dagExtend_mem tf rs i _ 0 p hp

theorem filter_flatMap_pieces (tf : TF) (rs : List Char) (i : Nat) (l : List Nat) :
    ((l.flatMap (piecesAt tf rs)).filter fun p => p.1 == i) =
      (l.filter fun k => k == i).flatMap fun k => (piecesAt tf rs k).filter fun p => p.1 == i := by
  induction l with
  | nil => rfl
  | cons a t ih =>
    by_cases ha : a = i
    · subst ha
      simp only [List.flatMap_cons, List.filter_append, ih, List.filter_cons_of_pos,
        beq_self_eq_true]
    · simp only [List.flatMap_cons, List.filter_append, ih]
      have hb : (a == i) = false := beq_eq_false_iff_ne.mpr ha
      simp only [List.filter_cons_of_neg, hb, Bool.false_eq_true, not_false_iff]
      have : (piecesAt tf rs a).filter (fun p => p.1 == i) = [] := by
        rw [List.filter_eq_nil_iff]
        intro p hp
        have := (piecesAt_mem tf rs a p hp).1
        simp [this, ha]
      rw [this]
      rfl

theorem range_filter_lt (n i : Nat) (h : n ≤ i) :
    ((List.range n).filter fun k => k == i) = [] := by
  rw [List.filter_eq_nil_iff]
  intro k hk
  have := List.mem_range.mp hk
  simp only [beq_iff_eq]
  omega

theorem range_filter_eq (n i : Nat) (h : i < n) :
    ((List.range n).filter fun k => k == i) = [i] := by
  induction n with
  | zero => omega
  | succ m ih =>
    rw [List.range_succ, List.filter_append]
    by_cases hm : i < m
    · rw [ih hm]
      have hb : (m == i) = false := beq_eq_false_iff_ne.mpr (by omega)
      simp [hb]
    · have him : i = m := by omega
      subst him
      rw [range_filter_lt i i (le_refl i)]
      simp

theorem dagAt_eq_piecesAt (tf : TF) (rs : List Char) (i : Nat) (h : i < rs.length) :
    dagAt tf rs i = (piecesAt tf rs i).map Prod.snd := by
  unfold dagAt buildDAGpieces
  rw [filter_flatMap_pieces, range_filter_eq _ _ h]
  have hall : (piecesAt tf rs i).filter (fun p => p.1 == i) = piecesAt tf rs i := by
    rw [List.filter_eq_self]
    intro p hp
    simp [(piecesAt_mem tf rs i p hp).1]
  simp [hall]

theorem take_one_drop (rs : List Char) (i : Nat) (h : i < rs.length) :
    (rs.drop i).take 1 = [runeAt rs i] := by
  rw [List.drop_eq_getElem_cons h, List.take_succ_cons, List.take_zero]
  unfold runeAt
  rw [List.getD_eq_getElem rs 'a' h]

theorem piecesAt_ne_nil (tf : TF) (rs : List Char) (i : Nat)
    (hval : ∀ e ∈ tf, 0 ≤ e.2) (h : i < rs.length) : piecesAt tf rs i ≠ [] := by
  unfold piecesAt
  cases halo : alookup [runeAt rs i] tf with
  | none => simp
  | some c =>
    by_cases hc : c = 0
    · simp [hc]
    · simp only [if_neg hc]
      obtain ⟨rem, hrem⟩ : ∃ rem, rs.length - i = rem + 1 := ⟨rs.length - i - 1, by omega⟩
      rw [hrem]
      unfold dagExtend
      simp only [take_one_drop rs i h, halo]
      have hpos : 0 < c := by
        have := hval ([runeAt rs i], c) (alookup_some_mem _ _ _ halo)
        omega
      simp [hpos]

/-- Claim C5: for every text and every term table with non-negative
frequencies (the invariant of the data model), every offset below the
text length has at least one outgoing DAG edge and every edge strictly
increases the offset; and when the single rune at the offset is absent
from the table or stored with frequency 0, the adjacency list is exactly
the fallback edge to the next offset. -/
theorem buildDAG_invariant (tf : TF) (rs : List Char) (i : Nat)
    (hval : ∀ e ∈ tf, 0 ≤ e.2) (hi : i < rs.length) :
    (dagAt tf rs i ≠ [] ∧ ∀ j ∈ dagAt tf rs i, i < j) ∧
    ((alookup [runeAt rs i] tf = none ∨ alookup [runeAt rs i] tf = some 0) →
      dagAt tf rs i = [i + 1]) := by
  have hd := dagAt_eq_piecesAt tf rs i hi
  refine ⟨⟨?_, ?_⟩, ?_⟩
  · rw [hd]
    intro hmap
    exact piecesAt_ne_nil tf rs i hval hi (List.map_eq_nil_iff.mp hmap)
  · intro j hj
    rw [hd] at hj
    obtain ⟨p, hp, rfl⟩ := List.mem_map.mp hj
    exact (piecesAt_mem tf rs i p hp).2
  · intro hcase
    have hpieces : piecesAt tf rs i = [(i, i + 1)] := by
      unfold piecesAt
      rcases hcase with hc | hc
      · rw [hc]
      · rw [hc]
        simp
    rw [hd, hpieces]
    rfl

/-- Witness for claim C5 at a concrete table and text. -/
theorem buildDAG_invariant_witness :
    ((dagAt ([(['上'], 2)] : TF) ['上', '下'] 1 ≠ [] ∧
        ∀ j ∈ dagAt ([(['上'], 2)] : TF) ['上', '下'] 1, 1 < j) ∧
    ((alookup [runeAt ['上', '下'] 1] ([(['上'], 2)] : TF) = none ∨
        alookup [runeAt ['上', '下'] 1] ([(['上'], 2)] : TF) = some 0) →
      dagAt ([(['上'], 2)] : TF) ['上', '下'] 1 = [1 + 1])) :=
  buildDAG_invariant ([(['上'], 2)] : TF) ['上', '下'] 1 (by decide) (by decide)


theorem insertRB_perm (x : ResultBlockE) (l : List ResultBlockE) :
    (insertRB x l).Perm (x :: l) := by
  induction l with
  | nil => exact List.Perm.refl _
  | cons y ys ih =>
    unfold insertRB
    by_cases hxy : x.id ≤ y.id
    · rw [if_pos hxy]
    · rw [if_neg hxy]
      exact (ih.cons y).trans (List.Perm.swap x y ys)

theorem sortRB_perm (l : List ResultBlockE) : (sortRB l).Perm l := by
  induction l with
  | nil => exact List.Perm.refl _
  | cons x xs ih => exact (insertRB_perm x (sortRB xs)).trans (ih.cons x)

theorem insertRB_sorted (x : ResultBlockE) (l : List ResultBlockE)
    (h : l.Pairwise fun a b => a.id ≤ b.id) :
    (insertRB x l).Pairwise fun a b => a.id ≤ b.id := by
  induction l with
  | nil => simp [insertRB]
  | cons y ys ih =>
    rw [List.pairwise_cons] at h
    obtain ⟨h1, h2⟩ := h
    unfold insertRB
    by_cases hxy : x.id ≤ y.id
    · rw [if_pos hxy]
      rw [List.pairwise_cons]
      refine ⟨?_, List.pairwise_cons.mpr ⟨h1, h2⟩⟩
      intro z hz
      rcases List.mem_cons.mp hz with rfl | hz
      · exact hxy
      · exact le_trans hxy (h1 z hz)
    · rw [if_neg hxy]
      rw [List.pairwise_cons]
      refine ⟨?_, ih h2⟩
      intro z hz
      rcases List.mem_cons.mp ((insertRB_perm x ys).mem_iff.mp hz) with rfl | hz
      · omega
      · exact h1 z hz

theorem sortRB_sorted (l : List ResultBlockE) :
    (sortRB l).Pairwise fun a b => a.id ≤ b.id := by
  induction l with
  | nil => exact List.Pairwise.nil
  | cons x xs ih => exact insertRB_sorted x (sortRB xs) ih

theorem pairwise_lt_of_le_nodup (l : List ResultBlockE)
    (hle : l.Pairwise fun a b => a.id ≤ b.id)
    (hnd : (l.map ResultBlockE.id).Nodup) :
    l.Pairwise fun a b => a.id < b.id := by
  have hne : l.Pairwise fun a b => a.id ≠ b.id := List.pairwise_map.mp hnd
  exact (hle.and hne).imp fun h => Nat.lt_of_le_of_ne h.1 h.2

theorem sortRB_eq_of_pairwise_lt (arrival canonical : List ResultBlockE)
    (hp : arrival.Perm canonical)
    (hlt : canonical.Pairwise fun a b => a.id < b.id) :
    sortRB arrival = canonical := by
  have hperm : (sortRB arrival).Perm canonical := (sortRB_perm arrival).trans hp
  have hnd : ((sortRB arrival).map ResultBlockE.id).Nodup := by
    have h1 : (canonical.map ResultBlockE.id).Nodup :=
      List.pairwise_map.mpr (hlt.imp fun h => Nat.ne_of_lt h)
    exact (List.Perm.nodup_iff (hperm.map ResultBlockE.id)).mpr h1
  have hslt : (sortRB arrival).Pairwise fun a b => a.id < b.id :=
    pairwise_lt_of_le_nodup _ (sortRB_sorted arrival) hnd
  haveI : IsAntisymm ResultBlockE (fun a b => a.id < b.id) :=
    ⟨fun a b h1 h2 => absurd (Nat.lt_trans h1 h2) (Nat.lt_irrefl a.id)⟩
  exact List.eq_of_perm_of_sorted hperm hslt hlt

theorem splitTextGo_ids (text : List Char) (marked : List (Nat × Nat)) :
    ∀ (count prevTail : Nat),
      ((splitTextGo text marked count prevTail).Pairwise fun a b => a.id < b.id) ∧
      ∀ b ∈ splitTextGo text marked count prevTail, count ≤ b.id := by
  induction marked with
  | nil =>
    intro count prevTail
    constructor <;> simp [splitTextGo]
  | cons pair rest ih =>
    intro count prevTail
    simp only [splitTextGo, ne_eq]
    split_ifs with hg ht ht
    · obtain ⟨hrest, -⟩ := ht
      subst hrest
      simp only [splitTextGo, List.cons_append, List.singleton_append, List.nil_append,
        List.append_nil]
      constructor
      · refine List.pairwise_cons.mpr ⟨?_, List.pairwise_cons.mpr ⟨?_, List.Pairwise.nil⟩⟩
        · intro b hb
          rcases List.mem_singleton.mp hb with rfl
          show count < count + 1
          omega
        · intro b hb
          cases hb
      · intro b hb
        rcases List.mem_cons.mp hb with rfl | hb
        · show count ≤ count
          omega
        · rcases List.mem_singleton.mp hb with rfl
          show count ≤ count + 1
          omega
    · obtain ⟨ihp, ihb⟩ := ih (count + 1) pair.2
      simp only [List.cons_append, List.singleton_append, List.nil_append]
      constructor
      · refine List.pairwise_cons.mpr ⟨?_, ihp⟩
        intro b hb
        have := ihb b hb
        show count < b.id
        omega
      · intro b hb
        rcases List.mem_cons.mp hb with rfl | hb
        · show count ≤ count
          omega
        · have := ihb b hb
          omega
    · obtain ⟨hrest, -⟩ := ht
      subst hrest
      simp only [splitTextGo, List.cons_append, List.singleton_append, List.nil_append,
        List.append_nil]
      constructor
      · refine List.pairwise_cons.mpr ⟨?_, List.pairwise_cons.mpr ⟨?_,
          List.pairwise_cons.mpr ⟨?_, List.Pairwise.nil⟩⟩⟩
        · intro b hb
          rcases List.mem_cons.mp hb with rfl | hb
          · show count < count + 1
            omega
          · rcases List.mem_singleton.mp hb with rfl
            show count < count + 1 + 1
            omega
        · intro b hb
          rcases List.mem_singleton.mp hb with rfl
          show count + 1 < count + 1 + 1
          omega
        · intro b hb
          cases hb
      · intro b hb
        rcases List.mem_cons.mp hb with rfl | hb
        · show count ≤ count
          omega
        · rcases List.mem_cons.mp hb with rfl | hb
          · show count ≤ count + 1
            omega
          · rcases List.mem_singleton.mp hb with rfl
            show count ≤ count + 1 + 1
            omega
    · obtain ⟨ihp, ihb⟩ := ih (count + 1 + 1) pair.2
      simp only [List.cons_append, List.singleton_append, List.nil_append]
      constructor
      · refine List.pairwise_cons.mpr ⟨?_, List.pairwise_cons.mpr ⟨?_, ihp⟩⟩
        · intro b hb
          rcases List.mem_cons.mp hb with rfl | hb
          · show count < count + 1
            omega
          · have := ihb b hb
            show count < b.id
            omega
        · intro b hb
          have := ihb b hb
          show count + 1 < b.id
          omega
      · intro b hb
        rcases List.mem_cons.mp hb with rfl | hb
        · show count ≤ count
          omega
        · rcases List.mem_cons.mp hb with rfl | hb
          · show count ≤ count + 1
            omega
          · have := ihb b hb
            omega

theorem splitText_ids (text : List Char) (marked : List (Nat × Nat)) :
    (splitText text marked).Pairwise fun a b => a.id < b.id := by
  unfold splitText
  by_cases hm : marked = []
  · simp [hm]
  · rw [if_neg hm]
    exact (splitTextGo_ids text marked 0 0).1

theorem seqResultBlocks_pairwise (cutZhF : Bool → List Char → List (List Char))
    (text : List Char) (useHmm : Bool) :
    (seqResultBlocks cutZhF text useHmm).Pairwise fun a b => a.id < b.id := by
  unfold seqResultBlocks
  exact List.pairwise_map.mpr (splitText_ids text (findRuns isHan text))

theorem foldl_append_tokens (l : List ResultBlockE) :
    ∀ acc, l.foldl (fun a rb => a ++ rb.tokens) acc =
      acc ++ (l.map ResultBlockE.tokens).flatten := by
  induction l with
  | nil => intro acc; simp
  | cons x xs ih =>
    intro acc
    simp only [List.foldl_cons, List.map_cons, List.flatten_cons, ih, List.append_assoc]

theorem foldl_append_blocks (f : TextBlockE → List (List Char)) (l : List TextBlockE) :
    ∀ acc, l.foldl (fun acc b => acc ++ f b) acc = acc ++ (l.map f).flatten := by
  induction l with
  | nil => intro acc; simp
  | cons x xs ih =>
    intro acc
    simp only [List.foldl_cons, List.map_cons, List.flatten_cons, ih, List.append_assoc]

/-- Claim C8: the ordered parallel cut equals the sequential cut.  The
worker pool of `CutParallel` (any count of at least one) processes every
block exactly as `Cut` does and only reorders the result blocks on the
result channel; that scheduling freedom is modelled by quantifying over
an arbitrary arrival permutation of the per-block results.  Sorting by
the pairwise distinct block ids restores block order, so flattening
yields the sequential token list for every text, hmm flag, and
Han-block routine. -/
theorem cutParallel_ordered_eq_cut (cutZhF : Bool → List Char → List (List Char))
    (text : List Char) (useHmm : Bool) (arrival : List ResultBlockE)
    (hp : arrival.Perm (seqResultBlocks cutZhF text useHmm)) :
    cutParallelOrdered arrival = cutWith cutZhF text useHmm := by
  have hsort : sortRB arrival = seqResultBlocks cutZhF text useHmm :=
    sortRB_eq_of_pairwise_lt _ _ hp (seqResultBlocks_pairwise cutZhF text useHmm)
  unfold cutParallelOrdered cutWith
  rw [hsort, foldl_append_tokens, foldl_append_blocks]
  unfold seqResultBlocks
  rw [List.map_map]
  rfl

/-- Witness for claim C8: a two-block text whose results arrive in
reversed order. -/
theorem cutParallel_ordered_eq_cut_witness :
    cutParallelOrdered [⟨1, [['中']]⟩, ⟨0, [['a']]⟩] =
      cutWith (fun _ t => [t]) ['a', '中'] true :=
  cutParallel_ordered_eq_cut (fun _ t => [t]) ['a', '中'] true
    [⟨1, [['中']]⟩, ⟨0, [['a']]⟩] (by decide)


theorem fbpGo_stop (dp : List (Int × List TailProba)) (n : Nat) (fuel : Nat) (i : Int)
    (acc : List (Int × Int)) (h : ¬(0 ≤ i ∧ i < (n : Int))) :
    fbpGo dp n fuel i acc = some acc.reverse := by
  cases fuel <;> simp [fbpGo, h]

theorem fbp_selfloop_none : ∀ (fuel : Nat) (acc : List (Int × Int)),
    fbpGo [((0 : Int), [⟨0, 1 * sc⟩])] 1 fuel 0 acc = none := by
  intro fuel
  induction fuel with
  | zero =>
    intro acc
    simp [fbpGo]
  | succ m ih =>
    intro acc
    have ht : maxIndexProba (lookupDP [((0 : Int), [⟨0, 1 * sc⟩])] 0) = ⟨0, 1 * sc⟩ := by
      decide
    simp only [fbpGo, ht, if_pos (by decide : (0 : Int) ≤ 0 ∧ (0 : Int) < ((1 : Nat) : Int))]
    exact ih _

/-- Claim C10, counterexample: the backtrace loop is claimed to return
after finitely many steps for every candidate map.  A map whose offset-0
candidate list holds a candidate ending at offset 0 makes the loop set
`i = 0` forever: no amount of fuel completes it, which is exactly the Go
loop running forever. -/
theorem findBestPath_self_loop_diverges :
    ¬ findBestPathTerminates [((0 : Int), [⟨0, 1 * sc⟩])] 1 := by
  rintro ⟨fuel, r, hr⟩
  unfold findBestPathFuel at hr
  rw [fbp_selfloop_none fuel []] at hr
  cases hr

theorem foldl_mip_components (items : List TailProba) :
    ∀ pb : TailProba × TailProba,
      ((items.foldl mipStep pb).1 = pb.1 ∨ (items.foldl mipStep pb).1 ∈ items) ∧
      ((items.foldl mipStep pb).2 = pb.2 ∨ (items.foldl mipStep pb).2 ∈ items) := by
  induction items with
  | nil => intro pb; exact ⟨Or.inl rfl, Or.inl rfl⟩
  | cons a t ih =>
    intro pb
    have h := ih (mipStep pb a)
    simp only [List.foldl_cons]
    constructor
    · rcases h.1 with h1 | h1
      · rw [h1]
        exact Or.inr (List.mem_cons_self a t)
      · exact Or.inr (List.mem_cons_of_mem a h1)
    · rcases h.2 with h2 | h2
      · rw [h2]
        unfold mipStep
        by_cases hle : pb.1.proba ≤ a.proba
        · rw [if_pos hle]
          exact Or.inr (List.mem_cons_self a t)
        · rw [if_neg hle]
          exact Or.inl rfl
      · exact Or.inr (List.mem_cons_of_mem a h2)

theorem maxIndexProba_mem_or_default (items : List TailProba) :
    maxIndexProba items ∈ items ∨ maxIndexProba items = ⟨-1, minFloat⟩ := by
  have h := foldl_mip_components items (⟨-1, minFloat⟩, ⟨-1, minFloat⟩)
  simp only [maxIndexProba]
  by_cases hidx : (items.foldl mipStep (⟨-1, minFloat⟩, ⟨-1, minFloat⟩)).2.index = -1
  · rw [if_pos hidx]
    rcases h.1 with h1 | h1
    · exact Or.inr h1
    · exact Or.inl h1
  · rw [if_neg hidx]
    rcases h.2 with h2 | h2
    · exact Or.inr h2
    · exact Or.inl h2

theorem lookupDP_cases (dp : List (Int × List TailProba)) (i : Int) :
    lookupDP dp i = [] ∨ ∃ e ∈ dp, e.1 = i ∧ lookupDP dp i = e.2 := by
  induction dp with
  | nil => exact Or.inl rfl
  | cons e rest ih =>
    obtain ⟨k, v⟩ := e
    by_cases hk : k = i
    · subst hk
      right
      exact ⟨(k, v), List.mem_cons_self _ _, rfl, by simp [lookupDP]⟩
    · rcases ih with h | ⟨e2, he2, hei, hl⟩
      · left
        simp [lookupDP, hk, h]
      · right
        exact ⟨e2, List.mem_cons_of_mem _ he2, hei, by simp [lookupDP, hk, hl]⟩

theorem fbp_terminates (dp : List (Int × List TailProba)) (n : Nat)
    (h : ∀ e ∈ dp, ∀ tp ∈ e.2, e.1 < tp.index) :
    ∀ (fuel : Nat) (i : Int) (acc : List (Int × Int)),
      0 ≤ i → (n : Int) - i < fuel → ∃ r, fbpGo dp n fuel i acc = some r := by
  intro fuel
  induction fuel with
  | zero =>
    intro i acc h0 hf
    have hc : ¬(0 ≤ i ∧ i < (n : Int)) := by omega
    exact ⟨acc.reverse, fbpGo_stop dp n 0 i acc hc⟩
  | succ m ih =>
    intro i acc h0 hf
    by_cases hc : 0 ≤ i ∧ i < (n : Int)
    · have hstep : fbpGo dp n (m + 1) i acc =
          fbpGo dp n m (maxIndexProba (lookupDP dp i)).index
            ((i, (maxIndexProba (lookupDP dp i)).index) :: acc) := by
        simp only [fbpGo, if_pos hc]
      rcases maxIndexProba_mem_or_default (lookupDP dp i) with hmem | hdef
      · rcases lookupDP_cases dp i with hnil | ⟨e, he, hei, hl⟩
        · rw [hnil] at hmem
          cases hmem
        · have hmem2 : maxIndexProba (lookupDP dp i) ∈ e.2 := by
            rw [← hl]
            exact hmem
          have hlt := h e he _ hmem2
          have hidx : i < (maxIndexProba (lookupDP dp i)).index := by omega
          rw [hstep]
          exact ih _ _ (by omega) (by omega)
      · rw [hstep, hdef]
        rw [show (⟨-1, minFloat⟩ : TailProba).index = -1 from rfl]
        exact ⟨_, fbpGo_stop dp n m _ _ (by omega)⟩
    · exact ⟨acc.reverse, fbpGo_stop dp n (m + 1) i acc hc⟩

/-- Claim C10, amended: the backtrace terminates whenever every stored
candidate strictly advances its offset (which the candidates built by
`findDAGPath` always do, their endpoints being DAG edge targets above
the offset); an empty or missing candidate list still exits through the
sentinel index -1.  For an arbitrary map the loop need not return:
a candidate pointing back at its own offset loops forever (see the
counterexample). -/
theorem findBestPath_terminates_of_progress (dp : List (Int × List TailProba)) (n : Nat)
    (h : ∀ e ∈ dp, ∀ tp ∈ e.2, e.1 < tp.index) :
    ∃ r, findBestPathFuel dp n (n + 1) = some r := by
  unfold findBestPathFuel
  exact fbp_terminates dp n h (n + 1) 0 [] (by omega) (by omega)

/-- Witness for claim C10 at a concrete advancing candidate map. -/
theorem findBestPath_terminates_of_progress_witness :
    ∃ r, findBestPathFuel [((0 : Int), [⟨1, e11⟩])] 1 (1 + 1) = some r :=
  findBestPath_terminates_of_progress [((0 : Int), [⟨1, e11⟩])] 1 (by decide)

/-- The invariant carried by the Viterbi full-path map: the path stored
for each state ends in that state. -/
def pathsEndWell (pm : List (String × List String)) : Prop :=
  ∀ s ∈ HMMstates, ∃ p, alookup s pm = some (p ++ [s])

theorem viterbiInit_paths (hmm : HMMq) (c0 : Char) :
    pathsEndWell (viterbiInit hmm c0).2 := by
  intro s hs
  fin_cases hs
  · exact ⟨[], rfl⟩
  · exact ⟨[], rfl⟩
  · exact ⟨[], rfl⟩
  · exact ⟨[], rfl⟩

theorem viterbiStep_paths (hmm : HMMq) (st : List (String × Int) × List (String × List String))
    (c : Char) : pathsEndWell (viterbiStep hmm st c).2 := by
  intro s hs
  fin_cases hs
  · exact ⟨_, rfl⟩
  · exact ⟨_, rfl⟩
  · exact ⟨_, rfl⟩
  · exact ⟨_, rfl⟩

theorem foldl_viterbi_paths (hmm : HMMq) (chars : List Char)
    (st : List (String × Int) × List (String × List String)) (h : pathsEndWell st.2) :
    pathsEndWell ((chars.foldl (viterbiStep hmm) st).2) := by
  induction chars generalizing st with
  | nil => exact h
  | cons c cs ih => exact ih (viterbiStep hmm st c) (viterbiStep_paths hmm st c)

/-- Claim C3, amended: for every input of at least two runes the decoder
returns the full path recorded for E when the cumulative probability of
E at the last position strictly exceeds that of S, and otherwise —
including exact ties — the path recorded for S; each recorded path ends
in its own state.  (The claim as frozen says ties favor E; the current
implementation compares `e > s` and falls to the S branch on equality,
see the counterexample.) -/
theorem viterbi_final_selection (hmm : HMMq) (c0 c1 : Char) (rest : List Char) :
    viterbi hmm (c0 :: c1 :: rest) =
      (if (alookup "S" ((c1 :: rest).foldl (viterbiStep hmm) (viterbiInit hmm c0)).1).getD 0 <
          (alookup "E" ((c1 :: rest).foldl (viterbiStep hmm) (viterbiInit hmm c0)).1).getD 0
        then (alookup "E" ((c1 :: rest).foldl (viterbiStep hmm) (viterbiInit hmm c0)).2).getD []
        else (alookup "S" ((c1 :: rest).foldl (viterbiStep hmm) (viterbiInit hmm c0)).2).getD
          []) ∧
    ((alookup "E" ((c1 :: rest).foldl (viterbiStep hmm) (viterbiInit hmm c0)).2).getD
      []).getLast? = some "E" ∧
    ((alookup "S" ((c1 :: rest).foldl (viterbiStep hmm) (viterbiInit hmm c0)).2).getD
      []).getLast? = some "S" := by
  have hpaths : pathsEndWell (((c1 :: rest).foldl (viterbiStep hmm) (viterbiInit hmm c0)).2) :=
    foldl_viterbi_paths hmm (c1 :: rest) (viterbiInit hmm c0) (viterbiInit_paths hmm c0)
  refine ⟨?_, ?_, ?_⟩
  · simp only [viterbi, List.length_cons]
    rw [if_neg (by omega)]
  · obtain ⟨p, hp⟩ := hpaths "E" (by decide)
    rw [hp]
    simp [List.getLast?_concat]
  · obtain ⟨p, hp⟩ := hpaths "S" (by decide)
    rw [hp]
    simp [List.getLast?_concat]


theorem buildPDLoop_err (lines : List (List Char)) :
    ∀ (oldSize : Int) (tf : TF) (total : Int) (pd' : PD) (f : List Char),
      buildPDLoop oldSize tf total lines = .err pd' f →
      pd'.size = oldSize ∧
      ∃ good bad rest, lines = good ++ bad :: rest ∧ (∀ g ∈ good, lineGood g = true) ∧
        lineCountField bad = some f ∧ atoi f = none ∧
        pd'.termFreq = good.foldl applyGoodLine tf := by
  induction lines with
  | nil =>
    intro oldSize tf total pd' f h
    exact absurd h (by simp [buildPDLoop])
  | cons line rest ihl =>
    intro oldSize tf total pd' f h
    simp only [buildPDLoop] at h
    cases hcf : (lineParts line).drop 1 with
    | nil =>
      rw [hcf] at h
      exact BuildResult.noConfusion h
    | cons cf cfs =>
      simp only [hcf] at h
      cases hat : atoi cf with
      | none =>
        simp only [hat] at h
        injection h with h1 h2
        subst h2
        rw [← h1]
        refine ⟨rfl, [], line, rest, rfl, by simp, ?_, hat, rfl⟩
        simp [lineCountField, hcf]
      | some count =>
        simp only [hat] at h
        by_cases hw : (lineWord line).isEmpty
        · rw [if_pos hw] at h
          exact BuildResult.noConfusion h
        · rw [if_neg hw] at h
          obtain ⟨h1, good, bad, rest2, hsplit, hgood, hcf2, hat2, htf⟩ :=
            ihl oldSize (applyGoodLine tf line) (total + count) pd' f h
          refine ⟨h1, line :: good, bad, rest2, by rw [hsplit]; rfl, ?_, hcf2, hat2, ?_⟩
          · intro g hg
            rcases List.mem_cons.mp hg with rfl | hg
            · simp [lineGood, lineCountField, hcf, hat, hw]
            · exact hgood g hg
          · rw [htf]
            rfl

/-- Claim C4, amended: on a line whose count field is present but
non-numeric, the build returns the parse error of the first such line
(carrying that count field) and the corpus size keeps its previous
value, but the term table does not stay unchanged: it is replaced by the
partially built table of the lines preceding the failure (a line with
the count field missing entirely crashes instead of returning an
error — see the counterexample). -/
theorem buildPrefixDictionary_error_behavior (pd : PD) (lines : List (List Char))
    (pd' : PD) (f : List Char) (h : buildPrefixDictionary pd lines = .err pd' f) :
    pd'.size = pd.size ∧
    ∃ good bad rest, lines = good ++ bad :: rest ∧ (∀ g ∈ good, lineGood g = true) ∧
      lineCountField bad = some f ∧ atoi f = none ∧
      pd'.termFreq = good.foldl applyGoodLine [] :=
  buildPDLoop_err lines pd.size [] 0 pd' f h

/-- Witness for claim C4 at a concrete two-line dictionary. -/
theorem buildPrefixDictionary_error_behavior_witness :
    (⟨[(['a', 'b'], 2), (['a'], 0)], 42⟩ : PD).size = (⟨[(['o'], 7)], 42⟩ : PD).size ∧
    ∃ good bad rest,
      [['a', 'b', ' ', '2'], ['c', 'd', ' ', 'y']] = good ++ bad :: rest ∧
      (∀ g ∈ good, lineGood g = true) ∧ lineCountField bad = some ['y'] ∧
      atoi ['y'] = none ∧
      (⟨[(['a', 'b'], 2), (['a'], 0)], 42⟩ : PD).termFreq = good.foldl applyGoodLine [] :=
  buildPrefixDictionary_error_behavior ⟨[(['o'], 7)], 42⟩
    [['a', 'b', ' ', '2'], ['c', 'd', ' ', 'y']] ⟨[(['a', 'b'], 2), (['a'], 0)], 42⟩ ['y']
    (by decide)

end JiebaGo
